import Mathlib

set_option maxHeartbeats 1000000

/-!
Verification of the crossword CSP solver in `generate.py`
(`CrosswordCreator`): node consistency, arc revision, AC-3, the consistency
check, the ordering heuristics and the backtracking search.  The geometry
collaborator (`crossword.py`, not among the solver sources) is modelled
abstractly from the spec.
-/

namespace CrosswordCSP

/-- Direction of a word slot on the grid (`Variable.ACROSS` / `Variable.DOWN`
in the source). -/
inductive Direction where
  | across
  | down
deriving DecidableEq, Repr

/-- Modelled from the spec: a word slot of the puzzle, identified by its
position, direction and length, with structural equality (the class
`Variable` of the geometry collaborator `crossword.py`, which is not part of
the solver sources). -/
structure Variable where
  i : Nat
  j : Nat
  direction : Direction
  length : Nat
deriving DecidableEq, Repr

/-- Words are modelled as lists of characters. -/
abbrev Word := List Char

/-- Modelled from the spec: the geometry/vocabulary collaborator.  It
supplies the set of variables, the vocabulary, and the overlap lookup: for
an ordered pair of crossing variables, `overlaps x y = some (i, j)` means
character `i` of `x`'s word must equal character `j` of `y`'s word, and
`none` means the pair does not cross. -/
structure Crossword where
  vars : List Variable
  words : List Word
  overlaps : Variable → Variable → Option (Nat × Nat)

/-- Modelled from the spec: the neighbor lookup — the other variables with a
defined overlap. -/
def Crossword.neighbors (c : Crossword) (v : Variable) : List Variable :=
  c.vars.filter (fun u => (u != v) && (c.overlaps v u).isSome)

/-- The domain store: each variable with its current list of candidate words
(`self.domains` in the source, a dict keyed by the variables). -/
abbrev Domains := List (Variable × List Word)

/-- A (possibly partial) assignment: variables with their chosen words, in
insertion order (a Python dict). -/
abbrev Assignment := List (Variable × Word)

/-- Association-list lookup; models indexing a Python dict keyed by
variables. -/
def lookup {α : Type} : List (Variable × α) → Variable → Option α
  | [], _ => none
  | p :: rest, v => if p.1 = v then some p.2 else lookup rest v

/-- The keys of a variable-keyed association list, in order. -/
def keyList {α : Type} (l : List (Variable × α)) : List Variable :=
  l.map Prod.fst

/-- The current domain of a variable, as read by `self.domains[x]`; a
missing key gives `[]`. -/
def getDom (d : Domains) (v : Variable) : List Word :=
  (lookup d v).getD []

/-- Overwrite the domain of `x`, as done by removals on `self.domains[x]`:
the existing entry for `x` is replaced, a missing key is left alone. -/
def setDom : Domains → Variable → List Word → Domains
  | [], _, _ => []
  | p :: rest, x, ws => if p.1 = x then (x, ws) :: rest else p :: setDom rest x ws

/-- Total number of candidate words over all entries of the store: the
measure that strictly decreases at every successful revision. -/
def totalSize (d : Domains) : Nat :=
  (d.map (fun p => p.2.length)).sum

/-- `__init__`: every variable starts with the full vocabulary. -/
def initDomains (c : Crossword) : Domains :=
  c.vars.map (fun v => (v, c.words))

/-- `enforce_node_consistency`: drop from every domain the words whose
length differs from the variable's length.  The source iterates a deep copy
while removing from the live store, which amounts to filtering each entry. -/
def enforce_node_consistency (d : Domains) : Domains :=
  d.map (fun p => (p.1, p.2.filter (fun w => w.length == p.1.length)))

/-- The `matched` inner loop of `revise`: does `w` have a supporting word in
`ws`, i.e. one agreeing at the overlap indices?  Out-of-range character
access (impossible on well-formed geometry) is modelled by `Option`
equality. -/
def hasSupport (w : Word) (i j : Nat) (ws : List Word) : Bool :=
  ws.any (fun w2 => w[i]? == w2[j]?)

/-- `revise(x, y)`: keep in the domain of `x` only words supported in the
domain of `y` with respect to their overlap; report whether anything was
removed.  The source iterates a copy of the domain of `x` while removing
from the live entry, which is the same filter; the domain of `y` is stable
during the pass since the geometry never defines a self-overlap. -/
def revise (c : Crossword) (d : Domains) (x y : Variable) : Bool × Domains :=
  match c.overlaps x y with
  | none => (false, d)
  | some (i, j) =>
    let newDx := (getDom d x).filter (fun w => hasSupport w i j (getDom d y))
    if newDx.length < (getDom d x).length then (true, setDom d x newDx)
    else (false, d)

/-- The work-list loop of `ac3`, indexed by fuel; `none` means the fuel ran
out, which `ac3Fuel_isSome` shows cannot happen with `ac3Bound` fuel. -/
def ac3Fuel (c : Crossword) :
    Nat → List (Variable × Variable) → Domains → Option (Bool × Domains)
  | 0, _, _ => none
  | _ + 1, [], d => some (true, d)
  | n + 1, (x, y) :: rest, d =>
    match revise c d x y with
    | (false, _) => ac3Fuel c n rest d
    | (true, d') =>
      if (getDom d' x).length = 0 then some (false, d')
      else
        ac3Fuel c n
          (rest ++ ((c.neighbors x).filter (fun z => z != y)).map (fun z => (z, x)))
          d'

/-- Fuel sufficient for `ac3Fuel` to finish on any input: every step either
shrinks some domain or shortens the queue, and each shrink enqueues at most
`c.vars.length` arcs. -/
def ac3Bound (c : Crossword) (q : List (Variable × Variable)) (d : Domains) : Nat :=
  totalSize d * (c.vars.length + 1) + q.length + 1

/-- `ac3(arcs)`: run the work-list to completion, returning the success flag
together with the pruned store.  The fuel `ac3Bound` is proven sufficient
(`ac3_terminates`), so the fallback of `getD` is never taken. -/
def ac3 (c : Crossword) (q : List (Variable × Variable)) (d : Domains) : Bool × Domains :=
  (ac3Fuel c (ac3Bound c q d) q d).getD (false, d)

/-- Modelled from the spec: the default initial arc list used by `ac3` when
none is supplied — all arcs derivable from every defined overlap.  The
source iterates the keys of `crossword.overlaps`, built by the geometry
collaborator that is not part of the solver sources. -/
def defaultArcs (c : Crossword) : List (Variable × Variable) :=
  c.vars.foldr (fun v acc => ((c.neighbors v).map (fun u => (v, u))) ++ acc) []

/-- `assignment_complete`: every key of `self.domains` is assigned. -/
def assignment_complete (d : Domains) (a : Assignment) : Bool :=
  d.all (fun p => (lookup a p.1).isSome)

/-- `consistent(assignment)` exactly as the source implements it.  Note that
the first check iterates the assignment itself, i.e. its keys rather than
its words, so it compares the number of assigned variables with the number
of distinct assigned variables. -/
def consistent (c : Crossword) (a : Assignment) : Bool :=
  let words := a.map Prod.fst
  if words.length = words.eraseDups.length then
    if a.all (fun p => p.1.length == p.2.length) then
      a.all (fun p =>
        (c.neighbors p.1).all (fun nb =>
          match lookup a nb with
          | none => true
          | some w2 =>
            match c.overlaps p.1 nb with
            | some (i, j) => p.2[i]? == w2[j]?
            | none => true))
    else false
  else false

/-- Stable insertion into an ascending list: `x` lands after every element
`y` with `le y x`, matching the stability of Python's `sorted`. -/
def insertSorted {α : Type} (le : α → α → Bool) (x : α) : List α → List α
  | [] => [x]
  | y :: ys => if le y x then y :: insertSorted le x ys else x :: y :: ys

/-- Stable ascending sort (insertion sort), modelling Python's `sorted`. -/
def sortBy {α : Type} (le : α → α → Bool) (l : List α) : List α :=
  l.foldl (fun acc x => insertSorted le x acc) []

/-- `select_unassigned_variable`: collect the unassigned variables with
their domains, sort ascending by domain size; with exactly one candidate
return it, otherwise re-sort the keys by neighbor count descending and take
the head.  `none` models the source's index error on an empty candidate
list. -/
def select_unassigned_variable (c : Crossword) (d : Domains) (a : Assignment) :
    Option Variable :=
  let choice := d.filter (fun p => (lookup a p.1).isNone)
  let mrv := sortBy (fun p q => decide (p.2.length ≤ q.2.length)) choice
  match mrv with
  | [p] => some p.1
  | _ =>
    (sortBy (fun x y => decide ((c.neighbors y).length ≤ (c.neighbors x).length))
      (mrv.map Prod.fst)).head?

/-- The `eliminated` counter of `order_domain_values`: how many candidate
words across the unassigned neighbors of `var` disagree with `w` at the
overlap. -/
def countElim (c : Crossword) (d : Domains) (a : Assignment) (var : Variable)
    (w : Word) : Nat :=
  ((c.neighbors var).map (fun nb =>
    if (lookup a nb).isSome then 0
    else
      match c.overlaps var nb with
      | some (i, j) => ((getDom d nb).filter (fun w2 => !(w[i]? == w2[j]?))).length
      | none => 0)).sum

/-- `order_domain_values`: the domain of `var` sorted ascending by
elimination count.  The source binds `sorted_list` inside the loop over the
domain, so an empty domain reaches the `return` with the name unbound and
raises; this failure is modelled as `none`. -/
def order_domain_values (c : Crossword) (d : Domains) (var : Variable)
    (a : Assignment) : Option (List Word) :=
  match getDom d var with
  | [] => none
  | _ :: _ =>
    some ((sortBy (fun p q => decide (p.2 ≤ q.2))
      ((getDom d var).map (fun w => (w, countElim c d a var w)))).map Prod.fst)

/-- One step of the `for value in self.domains[variable]` loop of
`backtrack`: the first success is kept, later candidates extend a copy of
the caller's assignment and recurse only when consistent. -/
def tryValue (c : Crossword) (f : Assignment → Option Assignment) (var : Variable)
    (a : Assignment) (acc : Option Assignment) (w : Word) : Option Assignment :=
  match acc with
  | some r => some r
  | none =>
    let a2 := a ++ [(var, w)]
    if consistent c a2 then f a2 else none

/-- The body of one level of `backtrack`: complete assignments are returned
as is, otherwise a variable is selected and its current domain is tried in
order. -/
def backtrackStep (c : Crossword) (d : Domains) (f : Assignment → Option Assignment)
    (a : Assignment) : Option Assignment :=
  if a.length = d.length then some a
  else
    match select_unassigned_variable c d a with
    | none => none
    | some var => (getDom d var).foldl (tryValue c f var a) none

/-- `backtrack(assignment)`, with fuel bounding the recursion depth; each
level adds one assigned variable, so the depth never exceeds the number of
variables plus one (see `solve`). -/
def backtrack (c : Crossword) (d : Domains) : Nat → Assignment → Option Assignment
  | 0, _ => none
  | n + 1, a => backtrackStep c d (fun b => backtrack c d n b) a

/-- Counting companion of `tryValue`, accumulating how many times the search
routine is entered. -/
def tryValueCount (c : Crossword) (f : Assignment → Option Assignment × Nat)
    (var : Variable) (a : Assignment) (acc : Option Assignment × Nat) (w : Word) :
    Option Assignment × Nat :=
  match acc with
  | (some r, k) => (some r, k)
  | (none, k) =>
    let a2 := a ++ [(var, w)]
    if consistent c a2 then
      let r := f a2
      (r.1, k + r.2)
    else (none, k)

/-- The body of one level of `backtrackCount`. -/
def backtrackCountStep (c : Crossword) (d : Domains)
    (f : Assignment → Option Assignment × Nat) (a : Assignment) :
    Option Assignment × Nat :=
  if a.length = d.length then (some a, 1)
  else
    match select_unassigned_variable c d a with
    | none => (none, 1)
    | some var => (getDom d var).foldl (tryValueCount c f var a) (none, 1)

/-- `backtrack` instrumented with a counter of how many times the search
routine is entered; the search itself is unchanged. -/
def backtrackCount (c : Crossword) (d : Domains) :
    Nat → Assignment → Option Assignment × Nat
  | 0, _ => (none, 1)
  | n + 1, a => backtrackCountStep c d (fun b => backtrackCount c d n b) a

/-- The domain store as `solve` leaves it for the search: node consistency,
then `ac3` with the default arcs — whose Boolean result the source
discards. -/
def solveDomains (c : Crossword) : Domains :=
  (ac3 c (defaultArcs c) (enforce_node_consistency (initDomains c))).2

/-- `solve()`: enforce node consistency, run `ac3` (ignoring its result),
then backtrack from the empty assignment. -/
def solve (c : Crossword) : Option Assignment :=
  backtrack c (solveDomains c) ((solveDomains c).length + 1) []

/-! ### Association-list lemmas -/

theorem keyList_nil {α : Type} : keyList ([] : List (Variable × α)) = [] := rfl

theorem keyList_cons {α : Type} (p : Variable × α) (l : List (Variable × α)) :
    keyList (p :: l) = p.1 :: keyList l := rfl

theorem lookup_eq_none_iff {α : Type} (l : List (Variable × α)) (v : Variable) :
    lookup l v = none ↔ v ∉ keyList l := by
  induction l with
  | nil => simp [lookup, keyList]
  | cons p rest ih =>
    rw [keyList_cons]
    by_cases h : p.1 = v
    · simp [lookup, h]
    · simp only [lookup, if_neg h, ih, List.mem_cons]
      constructor
      · intro hn hor
        rcases hor with hor | hor
        · exact h hor.symm
        · exact hn hor
      · intro hn hm
        exact hn (Or.inr hm)

theorem lookup_isSome_of_mem {α : Type} {l : List (Variable × α)} {v : Variable}
    (h : v ∈ keyList l) : (lookup l v).isSome = true := by
  cases hl : lookup l v with
  | none => exact absurd ((lookup_eq_none_iff l v).mp hl) (not_not_intro h)
  | some _ => rfl

theorem mem_of_lookup_isSome {α : Type} {l : List (Variable × α)} {v : Variable}
    (h : (lookup l v).isSome = true) : v ∈ keyList l := by
  by_contra hv
  rw [← lookup_eq_none_iff] at hv
  rw [hv] at h
  simp at h

theorem lookup_append {α : Type} (a b : List (Variable × α)) (v : Variable) :
    lookup (a ++ b) v = ((lookup a v).rec (lookup b v) (fun x => some x)) := by
  induction a with
  | nil => simp [lookup]
  | cons p rest ih =>
    by_cases h : p.1 = v <;> simp [lookup, h, ih]

theorem lookup_append_single {α : Type} {a : List (Variable × α)} {v u : Variable}
    {w : α} (h : lookup a v = none) :
    lookup (a ++ [(u, w)]) v = if u = v then some w else none := by
  rw [lookup_append, h]
  simp [lookup]

theorem keyList_append {α : Type} (a b : List (Variable × α)) :
    keyList (a ++ b) = keyList a ++ keyList b := by
  simp [keyList]

theorem keyList_setDom (d : Domains) (x : Variable) (ws : List Word) :
    keyList (setDom d x ws) = keyList d := by
  induction d with
  | nil => rfl
  | cons p rest ih =>
    by_cases h : p.1 = x
    · rw [setDom, if_pos h, keyList_cons, keyList_cons, h]
    · rw [setDom, if_neg h, keyList_cons, keyList_cons, ih]

theorem getDom_eq_nil_of_not_mem {d : Domains} {v : Variable}
    (h : v ∉ keyList d) : getDom d v = [] := by
  rw [getDom, (lookup_eq_none_iff d v).mpr h]
  rfl

theorem mem_keyList_of_getDom_ne_nil {d : Domains} {v : Variable}
    (h : getDom d v ≠ []) : v ∈ keyList d := by
  by_contra hv
  exact h (getDom_eq_nil_of_not_mem hv)

theorem getDom_setDom_self {d : Domains} {x : Variable} (ws : List Word)
    (h : x ∈ keyList d) : getDom (setDom d x ws) x = ws := by
  induction d with
  | nil => simp [keyList] at h
  | cons p rest ih =>
    by_cases hp : p.1 = x
    · rw [setDom, if_pos hp, getDom, lookup, if_pos rfl]
      rfl
    · have hm : x ∈ keyList rest := by
        rw [keyList_cons, List.mem_cons] at h
        rcases h with h | h
        · exact absurd h.symm hp
        · exact h
      rw [setDom, if_neg hp, getDom, lookup, if_neg hp]
      exact ih hm

theorem getDom_setDom_ne {d : Domains} {x v : Variable} (ws : List Word)
    (h : v ≠ x) : getDom (setDom d x ws) v = getDom d v := by
  induction d with
  | nil => rfl
  | cons p rest ih =>
    by_cases hp : p.1 = x
    · have hxv : ¬ x = v := fun he => h he.symm
      rw [setDom, if_pos hp, getDom, lookup, if_neg hxv, getDom, lookup,
        if_neg (hp ▸ hxv)]
    · by_cases hv : p.1 = v
      · rw [setDom, if_neg hp, getDom, lookup, if_pos hv, getDom, lookup, if_pos hv]
      · rw [setDom, if_neg hp, getDom, lookup, if_neg hv, getDom, lookup, if_neg hv]
        exact ih

theorem mem_getDom_setDom {d : Domains} {x v : Variable} {ws : List Word} {w : Word}
    (h : w ∈ getDom (setDom d x ws) v) : w ∈ getDom d v ∨ (v = x ∧ w ∈ ws) := by
  by_cases hv : v = x
  · subst hv
    by_cases hk : v ∈ keyList d
    · rw [getDom_setDom_self ws hk] at h
      exact Or.inr ⟨rfl, h⟩
    · rw [getDom_eq_nil_of_not_mem (by simpa [keyList_setDom] using hk)] at h
      simp at h
  · rw [getDom_setDom_ne ws hv] at h
    exact Or.inl h

theorem totalSize_setDom_lt {d : Domains} {x : Variable} {ws : List Word}
    (h : ws.length < (getDom d x).length) :
    totalSize (setDom d x ws) + 1 ≤ totalSize d := by
  induction d with
  | nil => simp [getDom, lookup] at h
  | cons p rest ih =>
    by_cases hp : p.1 = x
    · rw [getDom, lookup, if_pos hp] at h
      simp only [Option.getD_some] at h
      simp only [setDom, if_pos hp, totalSize, List.map_cons, List.sum_cons] at *
      omega
    · rw [getDom, lookup, if_neg hp] at h
      have := ih h
      simp only [setDom, if_neg hp, totalSize, List.map_cons, List.sum_cons] at *
      omega

/-! ### Node consistency -/

theorem keyList_enforce (d : Domains) :
    keyList (enforce_node_consistency d) = keyList d := by
  simp [keyList, enforce_node_consistency]

theorem getDom_enforce (d : Domains) (v : Variable) :
    getDom (enforce_node_consistency d) v
      = (getDom d v).filter (fun w => w.length == v.length) := by
  induction d with
  | nil => rfl
  | cons p rest ih =>
    by_cases hp : p.1 = v
    · subst hp
      simp [enforce_node_consistency, getDom, lookup]
    · simpa [enforce_node_consistency, getDom, lookup, hp] using ih

/-! ### Stable sort lemmas -/

theorem insertSorted_perm {α : Type} (le : α → α → Bool) (x : α) (l : List α) :
    (insertSorted le x l).Perm (x :: l) := by
  induction l with
  | nil => rfl
  | cons y ys ih =>
    by_cases h : le y x = true
    · simp only [insertSorted, if_pos h]
      exact ((ih.cons y).trans (List.Perm.swap x y ys))
    · simp only [insertSorted, if_neg h]
      exact List.Perm.refl _

theorem sortBy_perm {α : Type} (le : α → α → Bool) (l : List α) :
    (sortBy le l).Perm l := by
  have key : ∀ (l acc : List α),
      (l.foldl (fun acc x => insertSorted le x acc) acc).Perm (acc ++ l) := by
    intro l
    induction l with
    | nil => simp
    | cons x xs ih =>
      intro acc
      simp only [List.foldl_cons]
      refine (ih (insertSorted le x acc)).trans ?_
      have h1 : (insertSorted le x acc ++ xs).Perm ((x :: acc) ++ xs) :=
        (insertSorted_perm le x acc).append_right xs
      refine h1.trans ?_
      simpa using (@List.perm_middle _ x acc xs).symm
  simpa using key l []

theorem mem_of_head?_eq_some {α : Type} {l : List α} {x : α}
    (h : l.head? = some x) : x ∈ l := by
  cases l with
  | nil => simp at h
  | cons y ys =>
    simp at h
    simp [h]

theorem all_of_filter_length_eq {α : Type} {p : α → Bool} :
    ∀ {l : List α}, (l.filter p).length = l.length → ∀ a ∈ l, p a = true := by
  intro l
  induction l with
  | nil => simp
  | cons x xs ih =>
    intro h a ha
    by_cases hx : p x = true
    · rw [List.filter_cons_of_pos hx] at h
      simp only [List.length_cons, Nat.add_right_cancel_iff] at h
      rcases List.mem_cons.mp ha with rfl | ha
      · exact hx
      · exact ih h a ha
    · rw [List.filter_cons_of_neg hx] at h
      have := List.length_filter_le p xs
      simp only [List.length_cons] at h
      omega

/-! ### Arc revision lemmas -/

theorem revise_false_eq {c : Crossword} {d : Domains} {x y : Variable} {d' : Domains}
    (h : revise c d x y = (false, d')) : d' = d := by
  rw [revise] at h
  cases hov : c.overlaps x y with
  | none =>
    rw [hov] at h
    exact (Prod.mk.injEq _ _ _ _ ▸ h).2.symm
  | some ij =>
    obtain ⟨i, j⟩ := ij
    rw [hov] at h
    simp only at h
    split at h
    · exact absurd (Prod.mk.injEq _ _ _ _ ▸ h).1 (by simp)
    · exact (Prod.mk.injEq _ _ _ _ ▸ h).2.symm

theorem revise_true_spec {c : Crossword} {d : Domains} {x y : Variable} {d' : Domains}
    (h : revise c d x y = (true, d')) :
    ∃ i j, c.overlaps x y = some (i, j) ∧
      d' = setDom d x ((getDom d x).filter (fun w => hasSupport w i j (getDom d y))) ∧
      ((getDom d x).filter (fun w => hasSupport w i j (getDom d y))).length
        < (getDom d x).length := by
  rw [revise] at h
  cases hov : c.overlaps x y with
  | none =>
    rw [hov] at h
    exact absurd (Prod.mk.injEq _ _ _ _ ▸ h).1 (by simp)
  | some ij =>
    obtain ⟨i, j⟩ := ij
    rw [hov] at h
    simp only at h
    split at h
    · exact ⟨i, j, rfl, (Prod.mk.injEq _ _ _ _ ▸ h).2.symm, by assumption⟩
    · exact absurd (Prod.mk.injEq _ _ _ _ ▸ h).1 (by simp)

theorem revise_true_shrink {c : Crossword} {d : Domains} {x y : Variable} {d' : Domains}
    (h : revise c d x y = (true, d')) : totalSize d' + 1 ≤ totalSize d := by
  obtain ⟨i, j, _, hd, hl⟩ := revise_true_spec h
  rw [hd]
  exact totalSize_setDom_lt hl

theorem revise_true_keyList {c : Crossword} {d : Domains} {x y : Variable} {d' : Domains}
    (h : revise c d x y = (true, d')) : keyList d' = keyList d := by
  obtain ⟨i, j, _, hd, _⟩ := revise_true_spec h
  rw [hd, keyList_setDom]

/-- Words kept by a revision that removed nothing are all supported. -/
theorem revise_false_supported {c : Crossword} {d : Domains} {x y : Variable}
    {d' : Domains} {i j : Nat} (h : revise c d x y = (false, d'))
    (hov : c.overlaps x y = some (i, j)) :
    ∀ w ∈ getDom d x, hasSupport w i j (getDom d y) = true := by
  rw [revise, hov] at h
  simp only at h
  split at h
  · exact absurd (Prod.mk.injEq _ _ _ _ ▸ h).1 (by simp)
  · rename_i hlt
    have hle := List.length_filter_le (fun w => hasSupport w i j (getDom d y)) (getDom d x)
    have heq : ((getDom d x).filter (fun w => hasSupport w i j (getDom d y))).length
        = (getDom d x).length := by omega
    exact all_of_filter_length_eq heq

/-! ### AC-3 lemmas, via the fuel-indexed loop -/

theorem ac3Fuel_isSome (c : Crossword) :
    ∀ n q d, totalSize d * (c.vars.length + 1) + q.length < n →
      (ac3Fuel c n q d).isSome = true := by
  intro n
  induction n with
  | zero => intro q d h; omega
  | succ n ih =>
    intro q d h
    match q with
    | [] => rfl
    | (x, y) :: rest =>
      rw [ac3Fuel]
      cases hrev : revise c d x y with
      | mk b d' =>
        cases b with
        | false =>
          simp only
          apply ih
          simp only [List.length_cons] at h
          omega
        | true =>
          simp only
          split
          · rfl
          · apply ih
            have hshrink := revise_true_shrink hrev
            have hadds : (((c.neighbors x).filter (fun z => z != y)).map
                (fun z => (z, x))).length ≤ c.vars.length := by
              rw [List.length_map]
              calc ((c.neighbors x).filter (fun z => z != y)).length
                  ≤ (c.neighbors x).length := List.length_filter_le _ _
                _ ≤ c.vars.length := by
                    rw [Crossword.neighbors]
                    exact List.length_filter_le _ _
            have hmul : (totalSize d' + 1) * (c.vars.length + 1)
                ≤ totalSize d * (c.vars.length + 1) :=
              Nat.mul_le_mul_right _ hshrink
            rw [Nat.succ_mul] at hmul
            rw [List.length_append]
            simp only [List.length_cons] at h
            omega

theorem ac3Fuel_shrink (c : Crossword) :
    ∀ n q d b d', ac3Fuel c n q d = some (b, d') →
      ∀ v w, w ∈ getDom d' v → w ∈ getDom d v := by
  intro n
  induction n with
  | zero => intro q d b d' h; simp [ac3Fuel] at h
  | succ n ih =>
    intro q d b d' h v w hw
    match q with
    | [] =>
      rw [ac3Fuel] at h
      obtain ⟨rfl, rfl⟩ := Prod.mk.injEq _ _ _ _ ▸ (Option.some.injEq _ _ ▸ h)
      exact hw
    | (x, y) :: rest =>
      rw [ac3Fuel] at h
      cases hrev : revise c d x y with
      | mk b0 d0 =>
        rw [hrev] at h
        cases b0 with
        | false =>
          simp only at h
          exact ih rest d b d' h v w hw
        | true =>
          simp only at h
          obtain ⟨i, j, hov, hd0, hlt⟩ := revise_true_spec hrev
          have step : ∀ u, u ∈ getDom d0 v → u ∈ getDom d v := by
            intro u hu
            rw [hd0] at hu
            rcases mem_getDom_setDom hu with hu | ⟨rfl, hu⟩
            · exact hu
            · exact List.mem_of_mem_filter hu
          split at h
          · obtain ⟨rfl, rfl⟩ := Prod.mk.injEq _ _ _ _ ▸ (Option.some.injEq _ _ ▸ h)
            exact step w hw
          · exact step w (ih _ d0 b d' h v w hw)

theorem ac3Fuel_keyList (c : Crossword) :
    ∀ n q d b d', ac3Fuel c n q d = some (b, d') → keyList d' = keyList d := by
  intro n
  induction n with
  | zero => intro q d b d' h; simp [ac3Fuel] at h
  | succ n ih =>
    intro q d b d' h
    match q with
    | [] =>
      rw [ac3Fuel] at h
      obtain ⟨rfl, rfl⟩ := Prod.mk.injEq _ _ _ _ ▸ (Option.some.injEq _ _ ▸ h)
      rfl
    | (x, y) :: rest =>
      rw [ac3Fuel] at h
      cases hrev : revise c d x y with
      | mk b0 d0 =>
        rw [hrev] at h
        cases b0 with
        | false =>
          simp only at h
          exact ih rest d b d' h
        | true =>
          simp only at h
          have hk := revise_true_keyList hrev
          split at h
          · obtain ⟨rfl, rfl⟩ := Prod.mk.injEq _ _ _ _ ▸ (Option.some.injEq _ _ ▸ h)
            exact hk
          · exact (ih _ d0 b d' h).trans hk

theorem ac3Fuel_false_empty (c : Crossword) :
    ∀ n q d d', ac3Fuel c n q d = some (false, d') →
      ∃ v, v ∈ keyList d' ∧ getDom d' v = [] := by
  intro n
  induction n with
  | zero => intro q d d' h; simp [ac3Fuel] at h
  | succ n ih =>
    intro q d d' h
    match q with
    | [] =>
      rw [ac3Fuel] at h
      exact absurd (Prod.mk.injEq _ _ _ _ ▸ (Option.some.injEq _ _ ▸ h)).1 (by simp)
    | (x, y) :: rest =>
      rw [ac3Fuel] at h
      cases hrev : revise c d x y with
      | mk b0 d0 =>
        rw [hrev] at h
        cases b0 with
        | false =>
          simp only at h
          exact ih rest d d' h
        | true =>
          simp only at h
          split at h
          · rename_i hlen
            obtain ⟨_, rfl⟩ := Prod.mk.injEq _ _ _ _ ▸ (Option.some.injEq _ _ ▸ h)
            obtain ⟨i, j, hov, hd0, hlt⟩ := revise_true_spec hrev
            refine ⟨x, ?_, List.length_eq_zero.mp hlen⟩
            have hxd : x ∈ keyList d := by
              apply mem_keyList_of_getDom_ne_nil
              intro hnil
              rw [hnil] at hlt
              simp at hlt
            rw [revise_true_keyList hrev]
            exact hxd
          · exact ih _ d0 d' h

theorem ac3_eq_fuel (c : Crossword) (q : List (Variable × Variable)) (d : Domains) :
    ac3Fuel c (ac3Bound c q d) q d = some (ac3 c q d) := by
  have hs : (ac3Fuel c (ac3Bound c q d) q d).isSome = true := by
    apply ac3Fuel_isSome
    rw [ac3Bound]
    omega
  obtain ⟨r, hr⟩ := Option.isSome_iff_exists.mp hs
  rw [hr, ac3, hr]
  rfl

theorem ac3_shrink (c : Crossword) (q : List (Variable × Variable)) (d : Domains)
    (v : Variable) (w : Word) (h : w ∈ getDom (ac3 c q d).2 v) : w ∈ getDom d v := by
  have he := ac3_eq_fuel c q d
  exact ac3Fuel_shrink c _ q d (ac3 c q d).1 (ac3 c q d).2 (by rw [he]) v w h

theorem ac3_keyList (c : Crossword) (q : List (Variable × Variable)) (d : Domains) :
    keyList (ac3 c q d).2 = keyList d := by
  have he := ac3_eq_fuel c q d
  exact ac3Fuel_keyList c _ q d (ac3 c q d).1 (ac3 c q d).2 (by rw [he])

theorem ac3_false_empty {c : Crossword} {q : List (Variable × Variable)} {d d' : Domains}
    (h : ac3 c q d = (false, d')) : ∃ v, v ∈ keyList d' ∧ getDom d' v = [] := by
  have he := ac3_eq_fuel c q d
  rw [h] at he
  exact ac3Fuel_false_empty c _ q d d' he

/-! ### AC-3 soundness: the arc-consistency invariant -/

/-- Arc `(x, y)` is consistent in store `d`: every word in the domain of `x`
has a supporting word in the domain of `y` with respect to their overlap. -/
def arcOK (c : Crossword) (d : Domains) (x y : Variable) : Prop :=
  ∀ i j, c.overlaps x y = some (i, j) →
    ∀ w ∈ getDom d x, ∃ w2 ∈ getDom d y, w[i]? = w2[j]?

/-- Loop invariant of the AC-3 work-list: every arc between puzzle variables
is either still queued or already consistent. -/
def arcInv (c : Crossword) (d : Domains) (q : List (Variable × Variable)) : Prop :=
  ∀ x ∈ c.vars, ∀ y ∈ c.vars, (x, y) ∈ q ∨ arcOK c d x y

theorem hasSupport_iff (w : Word) (i j : Nat) (ws : List Word) :
    hasSupport w i j ws = true ↔ ∃ w2 ∈ ws, w[i]? = w2[j]? := by
  simp [hasSupport, List.any_eq_true]

theorem mem_neighbors (c : Crossword) (v u : Variable) :
    u ∈ c.neighbors v ↔ u ∈ c.vars ∧ u ≠ v ∧ (c.overlaps v u).isSome = true := by
  simp [Crossword.neighbors, List.mem_filter, Bool.and_eq_true, bne_iff_ne, and_assoc]

theorem mem_defaultArcs (c : Crossword) (x y : Variable) :
    (x, y) ∈ defaultArcs c ↔ x ∈ c.vars ∧ y ∈ c.neighbors x := by
  rw [defaultArcs]
  have key : ∀ l : List Variable,
      ((x, y) ∈ l.foldr (fun v acc => ((c.neighbors v).map (fun u => (v, u))) ++ acc) [])
        ↔ x ∈ l ∧ y ∈ c.neighbors x := by
    intro l
    induction l with
    | nil => simp
    | cons v vs ih =>
      simp only [List.foldr_cons, List.mem_append, ih, List.mem_cons, List.mem_map]
      constructor
      · intro h
        rcases h with ⟨u, hu, he⟩ | ⟨hx, hy⟩
        · obtain ⟨rfl, rfl⟩ := Prod.mk.injEq _ _ _ _ ▸ he.symm
          exact ⟨Or.inl rfl, hu⟩
        · exact ⟨Or.inr hx, hy⟩
      · intro ⟨hx, hy⟩
        rcases hx with rfl | hx
        · exact Or.inl ⟨y, hy, rfl⟩
        · exact Or.inr ⟨hx, hy⟩
  exact key c.vars

/-- Preservation of the arc-consistency invariant: when the work-list loop
finishes successfully, every arc between puzzle variables is consistent. -/
theorem ac3Fuel_arcOK (c : Crossword)
    (hsym : ∀ x y i j, c.overlaps x y = some (i, j) → c.overlaps y x = some (j, i))
    (hirr : ∀ x, c.overlaps x x = none) :
    ∀ n q d d', arcInv c d q → ac3Fuel c n q d = some (true, d') →
      ∀ x ∈ c.vars, ∀ y ∈ c.vars, arcOK c d' x y := by
  intro n
  induction n with
  | zero => intro q d d' _ h; simp [ac3Fuel] at h
  | succ n ih =>
    intro q d d' hinv h
    match q with
    | [] =>
      rw [ac3Fuel] at h
      obtain ⟨_, rfl⟩ := Prod.mk.injEq _ _ _ _ ▸ (Option.some.injEq _ _ ▸ h)
      intro x hx y hy
      rcases hinv x hx y hy with hq | hok
      · exact absurd hq (List.not_mem_nil _)
      · exact hok
    | (x, y) :: rest =>
      rw [ac3Fuel] at h
      cases hrev : revise c d x y with
      | mk b0 d0 =>
        rw [hrev] at h
        cases b0 with
        | false =>
          simp only at h
          have hd0 : d0 = d := revise_false_eq hrev
          refine ih rest d d' ?_ h
          intro a ha b hb
          rcases hinv a ha b hb with hq | hok
          · rw [List.mem_cons] at hq
            rcases hq with hq | hq
            · obtain ⟨rfl, rfl⟩ := Prod.mk.injEq _ _ _ _ ▸ hq
              right
              intro i j hov w hw
              have := revise_false_supported hrev hov w hw
              rw [hasSupport_iff] at this
              exact this
            · exact Or.inl hq
          · exact Or.inr hok
        | true =>
          simp only at h
          split at h
          · exact absurd (Prod.mk.injEq _ _ _ _ ▸ (Option.some.injEq _ _ ▸ h)).1 (by simp)
          · obtain ⟨i, j, hov0, hd0, hlt⟩ := revise_true_spec hrev
            have hyx : y ≠ x := by
              intro he
              rw [he, hirr] at hov0
              exact Option.noConfusion hov0
            have hx_key : x ∈ keyList d := by
              apply mem_keyList_of_getDom_ne_nil
              intro hnil
              rw [hnil] at hlt
              simp at hlt
            have hd0x : getDom d0 x
                = (getDom d x).filter (fun w => hasSupport w i j (getDom d y)) := by
              rw [hd0]
              exact getDom_setDom_self _ hx_key
            have hd0v : ∀ v, v ≠ x → getDom d0 v = getDom d v := by
              intro v hv
              rw [hd0]
              exact getDom_setDom_ne _ hv
            refine ih _ d0 d' ?_ h
            intro a ha b hb
            cases hovab : c.overlaps a b with
            | none =>
              right
              intro i' j' hov'
              rw [hovab] at hov'
              exact absurd hov' (by simp)
            | some ij' =>
              obtain ⟨i', j'⟩ := ij'
              rcases hinv a ha b hb with hq | hok
              · rw [List.mem_cons] at hq
                rcases hq with hq | hq
                · have ha2 : a = x := (Prod.mk.injEq _ _ _ _ ▸ hq).1
                  have hb2 : b = y := (Prod.mk.injEq _ _ _ _ ▸ hq).2
                  right
                  intro i2 j2 hov2 w hw
                  rw [ha2, hb2, hov0] at hov2
                  obtain ⟨hi2, hj2⟩ :=
                    Prod.mk.injEq _ _ _ _ ▸ (Option.some.injEq _ _ ▸ hov2)
                  rw [ha2, hd0x, List.mem_filter] at hw
                  obtain ⟨hwx, hws⟩ := hw
                  rw [hasSupport_iff] at hws
                  rw [hb2, hd0v y hyx, ← hi2, ← hj2]
                  exact hws
                · exact Or.inl (List.mem_append_left _ hq)
              · by_cases hbx : b = x
                · by_cases hab : a = x
                  · rw [hab, hbx, hirr] at hovab
                    exact absurd hovab (by simp)
                  · by_cases hay : a = y
                    · right
                      intro i2 j2 hov2 w2 hw2
                      rw [hovab] at hov2
                      obtain ⟨hi2, hj2⟩ :=
                        Prod.mk.injEq _ _ _ _ ▸ (Option.some.injEq _ _ ▸ hov2)
                      rw [hd0v a hab] at hw2
                      obtain ⟨w, hwx, hsup⟩ := hok i' j' hovab w2 hw2
                      have hsymm := hsym a b i' j' hovab
                      rw [hay, hbx, hov0] at hsymm
                      obtain ⟨hji, hij⟩ :=
                        Prod.mk.injEq _ _ _ _ ▸ (Option.some.injEq _ _ ▸ hsymm)
                      rw [hbx] at hwx ⊢
                      refine ⟨w, ?_, by rw [← hi2, ← hj2]; exact hsup⟩
                      rw [hd0x, List.mem_filter]
                      refine ⟨hwx, ?_⟩
                      rw [hasSupport_iff]
                      refine ⟨w2, by rw [← hay]; exact hw2, ?_⟩
                      rw [hji, hij]
                      exact hsup.symm
                    · left
                      apply List.mem_append_right
                      rw [List.mem_map]
                      refine ⟨a, ?_, by rw [hbx]⟩
                      rw [List.mem_filter]
                      constructor
                      · rw [mem_neighbors]
                        refine ⟨ha, hab, ?_⟩
                        have := hsym a b i' j' hovab
                        rw [hbx] at this
                        rw [this]
                        rfl
                      · rw [bne_iff_ne]
                        exact hay
                · right
                  intro i2 j2 hov2 w hw
                  rw [hd0v b hbx]
                  by_cases hax : a = x
                  · rw [hax, hd0x, List.mem_filter] at hw
                    exact hok i2 j2 hov2 w (hax ▸ hw.1)
                  · rw [hd0v a hax] at hw
                    exact hok i2 j2 hov2 w hw

/-! ### Variable selection and backtracking lemmas -/

theorem select_spec {c : Crossword} {d : Domains} {a : Assignment} {var : Variable}
    (h : select_unassigned_variable c d a = some var) :
    var ∈ keyList d ∧ lookup a var = none := by
  have hmem : ∀ p : Variable × List Word,
      p ∈ sortBy (fun p q => decide (p.2.length ≤ q.2.length))
        (d.filter (fun p => (lookup a p.1).isNone)) →
      p.1 ∈ keyList d ∧ lookup a p.1 = none := by
    intro p hp
    have hp2 := (sortBy_perm _ _).mem_iff.mp hp
    rw [List.mem_filter] at hp2
    refine ⟨List.mem_map_of_mem Prod.fst hp2.1, ?_⟩
    have h2 := hp2.2
    simpa using h2
  rw [select_unassigned_variable] at h
  cases hm : sortBy (fun p q => decide (p.2.length ≤ q.2.length))
      (d.filter (fun p => (lookup a p.1).isNone)) with
  | nil =>
    rw [hm] at h
    exact Option.noConfusion h
  | cons p rest =>
    rw [hm] at h
    cases rest with
    | nil =>
      simp only [Option.some.injEq] at h
      rw [← h]
      exact hmem p (hm ▸ List.mem_cons_self p [])
    | cons q rest2 =>
      have hhead := mem_of_head?_eq_some h
      have hvmem := (sortBy_perm _ _).mem_iff.mp hhead
      rw [List.mem_map] at hvmem
      obtain ⟨pp, hpp, hppv⟩ := hvmem
      rw [← hppv]
      exact hmem pp (hm ▸ hpp)

theorem keyList_append_single (a : Assignment) (v : Variable) (w : Word) :
    keyList (a ++ [(v, w)]) = keyList a ++ [v] := by
  simp [keyList]

theorem foldl_tryValue_eq_some {c : Crossword} {f : Assignment → Option Assignment}
    {var : Variable} {a : Assignment} {r : Assignment} :
    ∀ {ws : List Word}, ws.foldl (tryValue c f var a) none = some r →
      ∃ w ∈ ws, consistent c (a ++ [(var, w)]) = true ∧ f (a ++ [(var, w)]) = some r := by
  have key : ∀ (ws : List Word) (acc : Option Assignment),
      ws.foldl (tryValue c f var a) acc = some r →
      acc = some r ∨
        ∃ w ∈ ws, consistent c (a ++ [(var, w)]) = true
          ∧ f (a ++ [(var, w)]) = some r := by
    intro ws
    induction ws with
    | nil => intro acc h; exact Or.inl h
    | cons w ws ih =>
      intro acc h
      rw [List.foldl_cons] at h
      rcases ih _ h with hstep | ⟨w2, hw2, hcons, hrec⟩
      · cases acc with
        | some r0 =>
          left
          rw [tryValue] at hstep
          exact hstep
        | none =>
          replace hstep :
              (if consistent c (a ++ [(var, w)]) = true then f (a ++ [(var, w)])
                else none) = some r := hstep
          split at hstep
          · exact Or.inr ⟨w, List.mem_cons_self w ws, by assumption, hstep⟩
          · exact absurd hstep (by simp)
      · exact Or.inr ⟨w2, List.mem_cons_of_mem w hw2, hcons, hrec⟩
  intro ws h
  rcases key ws none h with hn | hr
  · exact absurd hn (by simp)
  · exact hr

theorem foldl_tryValue_none {c : Crossword} {f : Assignment → Option Assignment}
    {var : Variable} {a : Assignment}
    (hall : ∀ w, consistent c (a ++ [(var, w)]) = true → f (a ++ [(var, w)]) = none) :
    ∀ ws : List Word, ws.foldl (tryValue c f var a) none = none := by
  intro ws
  induction ws with
  | nil => rfl
  | cons w ws ih =>
    rw [List.foldl_cons]
    have hstep : tryValue c f var a none w = none := by
      show (if consistent c (a ++ [(var, w)]) = true then f (a ++ [(var, w)])
        else none) = none
      split
      · exact hall w (by assumption)
      · rfl
    rw [hstep]
    exact ih

/-- Soundness of `backtrack`: starting from a consistent assignment whose
keys are distinct puzzle variables, any returned assignment is complete and
consistent. -/
theorem backtrack_some_sound (c : Crossword) (d : Domains) :
    ∀ n a r, (keyList a).Nodup → (∀ v ∈ keyList a, v ∈ keyList d) →
      consistent c a = true → backtrack c d n a = some r →
      assignment_complete d r = true ∧ consistent c r = true := by
  intro n
  induction n with
  | zero => intro a r _ _ _ h; exact absurd h (by simp [backtrack])
  | succ n ih =>
    intro a r hnd hsub hcons h
    rw [backtrack, backtrackStep] at h
    split at h
    · rename_i hlen
      rw [Option.some.injEq] at h
      subst h
      constructor
      · rw [assignment_complete, List.all_eq_true]
        have hmem : ∀ v, v ∈ keyList d → v ∈ keyList a := by
          have hsp := List.Nodup.subperm hnd hsub
          obtain ⟨l, hl1, hl2⟩ := hsp
          have hka : (keyList a).length = a.length := List.length_map _ _
          have hkd : (keyList d).length = d.length := List.length_map _ _
          have hlen2 : l.length = (keyList d).length := by
            rw [hl1.length_eq, hka, hkd, hlen]
          have hld : l = keyList d := hl2.eq_of_length hlen2
          intro v hv
          rw [← hld] at hv
          exact hl1.mem_iff.mp hv
        intro p hp
        exact lookup_isSome_of_mem (hmem p.1 (List.mem_map_of_mem Prod.fst hp))
      · exact hcons
    · cases hsel : select_unassigned_variable c d a with
      | none =>
        rw [hsel] at h
        exact absurd h (by simp)
      | some var =>
        rw [hsel] at h
        obtain ⟨w, hw, hcons2, hrec⟩ := foldl_tryValue_eq_some h
        obtain ⟨hvk, hvn⟩ := select_spec hsel
        have hnotmem : var ∉ keyList a := (lookup_eq_none_iff a var).mp hvn
        refine ih (a ++ [(var, w)]) r ?_ ?_ hcons2 hrec
        · rw [keyList_append_single, List.nodup_append]
          refine ⟨hnd, List.nodup_singleton _, ?_⟩
          intro u hu hu2
          rw [List.mem_singleton] at hu2
          exact hnotmem (hu2 ▸ hu)
        · intro v hv
          rw [keyList_append_single, List.mem_append] at hv
          rcases hv with hv | hv
          · exact hsub v hv
          · rw [List.mem_singleton] at hv
            exact hv ▸ hvk

/-- If some puzzle variable has an empty domain and is still unassigned,
`backtrack` cannot construct a complete assignment and returns failure. -/
theorem backtrack_blocked (c : Crossword) (d : Domains)
    (v : Variable) (hv : v ∈ keyList d) (hempty : getDom d v = []) :
    ∀ n a, (keyList a).Nodup → (∀ u ∈ keyList a, u ∈ keyList d) →
      lookup a v = none → backtrack c d n a = none := by
  intro n
  induction n with
  | zero => intro a _ _ _; rfl
  | succ n ih =>
    intro a hnd hsub hnone
    rw [backtrack, backtrackStep]
    have hv_not : v ∉ keyList a := by
      intro hm
      have := lookup_isSome_of_mem hm
      rw [hnone] at this
      simp at this
    have hlt : a.length < d.length := by
      have hsub2 : ∀ u ∈ keyList a, u ∈ (keyList d).erase v := by
        intro u hu
        have hne : u ≠ v := fun he => hv_not (he ▸ hu)
        rw [List.mem_erase_of_ne hne]
        exact hsub u hu
      have hsp := List.Nodup.subperm hnd hsub2
      have hle := hsp.length_le
      have herase : ((keyList d).erase v).length = (keyList d).length - 1 :=
        List.length_erase_of_mem hv
      have hpos : 0 < (keyList d).length := List.length_pos.mpr (List.ne_nil_of_mem hv)
      have hka : (keyList a).length = a.length := List.length_map _ _
      have hkd : (keyList d).length = d.length := List.length_map _ _
      omega
    rw [if_neg (Nat.ne_of_lt hlt)]
    cases hsel : select_unassigned_variable c d a with
    | none => rfl
    | some var =>
      by_cases hvv : var = v
      · rw [hvv]
        show List.foldl (tryValue c (fun b => backtrack c d n b) v a) none (getDom d v)
          = none
        rw [hempty]
        rfl
      · apply foldl_tryValue_none
        intro w _
        apply ih
        · rw [keyList_append_single, List.nodup_append]
          have hnm : var ∉ keyList a := by
            obtain ⟨_, hvn⟩ := select_spec hsel
            exact (lookup_eq_none_iff a var).mp hvn
          refine ⟨hnd, List.nodup_singleton _, ?_⟩
          intro u hu hu2
          rw [List.mem_singleton] at hu2
          exact hnm (hu2 ▸ hu)
        · intro u hu
          rw [keyList_append_single, List.mem_append] at hu
          rcases hu with hu | hu
          · exact hsub u hu
          · rw [List.mem_singleton] at hu
            exact hu ▸ (select_spec hsel).1
        · rw [lookup_append_single hnone, if_neg hvv]

/-- AC-3 soundness at the level of `ac3` with the default arc list. -/
theorem ac3_default_arcOK (c : Crossword)
    (hsym : ∀ x y i j, c.overlaps x y = some (i, j) → c.overlaps y x = some (j, i))
    (hirr : ∀ x, c.overlaps x x = none)
    (d d' : Domains) (h : ac3 c (defaultArcs c) d = (true, d')) :
    ∀ x ∈ c.vars, ∀ y ∈ c.vars, arcOK c d' x y := by
  have he := ac3_eq_fuel c (defaultArcs c) d
  rw [h] at he
  refine ac3Fuel_arcOK c hsym hirr _ _ d d' ?_ he
  intro x hx y hy
  cases hov : c.overlaps x y with
  | none =>
    right
    intro i j hov'
    rw [hov] at hov'
    exact absurd hov' (by simp)
  | some ij =>
    left
    rw [mem_defaultArcs]
    refine ⟨hx, ?_⟩
    rw [mem_neighbors]
    refine ⟨hy, ?_, by rw [hov]; rfl⟩
    intro he
    rw [he, hirr] at hov
    exact Option.noConfusion hov

/-! ### Value ordering lemmas -/

theorem order_domain_values_eq_some {c : Crossword} {d : Domains} {var : Variable}
    {a : Assignment} (h : getDom d var ≠ []) :
    order_domain_values c d var a
      = some ((sortBy (fun p q => decide (p.2 ≤ q.2))
          ((getDom d var).map (fun w => (w, countElim c d a var w)))).map Prod.fst) := by
  unfold order_domain_values
  cases hdom : getDom d var with
  | nil => exact absurd hdom h
  | cons w ws => rfl

theorem order_domain_values_eq_none {c : Crossword} {d : Domains} {var : Variable}
    {a : Assignment} (h : getDom d var = []) :
    order_domain_values c d var a = none := by
  unfold order_domain_values
  rw [h]

/-! ### Concrete instances used as witnesses and counterexamples -/

def wCat : Word := ['c', 'a', 't']
def wCar : Word := ['c', 'a', 'r']
def wDog : Word := ['d', 'o', 'g']
def wMat : Word := ['m', 'a', 't']
def wCows : Word := ['c', 'o', 'w', 's']
def wCans : Word := ['c', 'a', 'n', 's']
def wMans : Word := ['m', 'a', 'n', 's']
def wAa : Word := ['a', 'a']
def wBbb : Word := ['b', 'b', 'b']
def wBba : Word := ['b', 'b', 'a']

/-- The scenario of the spec: two crossing slots of length 3, overlap at
(1, 1), vocabulary cat, car, dog. -/
def cExA : Variable := ⟨0, 0, Direction.across, 3⟩

def cExB : Variable := ⟨0, 1, Direction.down, 3⟩

def cEx : Crossword where
  vars := [cExA, cExB]
  words := [wCat, wCar, wDog]
  overlaps := fun x y =>
    if x = cExA ∧ y = cExB then some (1, 1)
    else if x = cExB ∧ y = cExA then some (1, 1) else none

/-- Store left by node consistency and AC-3 on `cEx` (all words survive). -/
def dExRes : Domains := [(cExA, [wCat, wCar, wDog]), (cExB, [wCat, wCar, wDog])]

theorem cEx_overlaps_symm : ∀ x y i j, cEx.overlaps x y = some (i, j) →
    cEx.overlaps y x = some (j, i) := by
  intro x y i j h
  have hov : cEx.overlaps x y
      = (if x = cExA ∧ y = cExB then some (1, 1)
        else if x = cExB ∧ y = cExA then some (1, 1) else none) := rfl
  rw [hov] at h
  split_ifs at h with h1 h2
  · obtain ⟨hx, hy⟩ := h1
    obtain ⟨hi, hj⟩ := Prod.mk.injEq _ _ _ _ ▸ (Option.some.injEq _ _ ▸ h)
    subst hx
    subst hy
    rw [← hi, ← hj]
    decide
  · obtain ⟨hx, hy⟩ := h2
    obtain ⟨hi, hj⟩ := Prod.mk.injEq _ _ _ _ ▸ (Option.some.injEq _ _ ▸ h)
    subst hx
    subst hy
    rw [← hi, ← hj]
    decide

theorem cEx_overlaps_irrefl : ∀ x, cEx.overlaps x x = none := by
  intro x
  show (if x = cExA ∧ x = cExB then some (1, 1)
    else if x = cExB ∧ x = cExA then some (1, 1) else none) = none
  split_ifs with h1 h2
  · obtain ⟨hx, hy⟩ := h1
    rw [hx] at hy
    exact absurd hy (by decide)
  · obtain ⟨hx, hy⟩ := h2
    rw [hx] at hy
    exact absurd hy (by decide)
  · rfl

/-- Two parallel length-3 slots with no overlap and the one-word vocabulary
cat: both get the same word. -/
def pA : Variable := ⟨0, 0, Direction.across, 3⟩

def pB : Variable := ⟨1, 0, Direction.across, 3⟩

def cDup : Crossword where
  vars := [pA, pB]
  words := [wCat]
  overlaps := fun _ _ => none

/-- Selection example: `uA` is isolated with a one-word domain, `uB` and
`uC` cross each other and hold two words each. -/
def uA : Variable := ⟨0, 0, Direction.across, 3⟩

def uB : Variable := ⟨1, 0, Direction.across, 4⟩

def uC : Variable := ⟨1, 0, Direction.down, 4⟩

def cSel : Crossword where
  vars := [uA, uB, uC]
  words := []
  overlaps := fun x y =>
    if x = uB ∧ y = uC then some (0, 0)
    else if x = uC ∧ y = uB then some (0, 0) else none

def dSel : Domains := [(uA, [wCat]), (uB, [wCows, wCans]), (uC, [wCows, wCans])]

/-- Ordering example: slots of lengths 3 and 4 crossing at (0, 0); the raw
domain order of the length-3 slot differs from its least-constraining-value
order. -/
def oX : Variable := ⟨0, 0, Direction.across, 3⟩

def oY : Variable := ⟨0, 0, Direction.down, 4⟩

def cOrd : Crossword where
  vars := [oX, oY]
  words := [wMat, wCat, wCows, wCans, wMans]
  overlaps := fun x y =>
    if x = oX ∧ y = oY then some (0, 0)
    else if x = oY ∧ y = oX then some (0, 0) else none

/-- Propagation-failure example: the overlap between `bX` and `bY` is
unsatisfiable, so AC-3 empties the domain of `bX`; `bY` and `bZ` still cross
compatibly, so the search explores branches on `bY` before failing. -/
def bX : Variable := ⟨0, 0, Direction.across, 2⟩

def bY : Variable := ⟨0, 0, Direction.down, 3⟩

def bZ : Variable := ⟨2, 0, Direction.across, 3⟩

def cB : Crossword where
  vars := [bX, bY, bZ]
  words := [wAa, wBbb, wBba]
  overlaps := fun x y =>
    if x = bX ∧ y = bY then some (0, 0)
    else if x = bY ∧ y = bX then some (0, 0)
    else if x = bY ∧ y = bZ then some (2, 0)
    else if x = bZ ∧ y = bY then some (0, 2) else none

/-- Store left by AC-3 on `cB`: the domain of `bX` has been emptied. -/
def dBRes : Domains := [(bX, []), (bY, [wBbb, wBba]), (bZ, [wBbb, wBba])]

/-! ### The claims -/

/-- C1: the claim fails on the code.  `consistent` iterates the assignment
itself — its keys — when it means to collect the assigned words, so the
distinctness check compares variables, never words: an assignment mapping
two different variables to the same word passes `consistent`, and `solve`
returns exactly such an assignment on `cDup`. -/
theorem C1_consistent_accepts_duplicate_words :
    consistent cDup [(pA, wCat), (pB, wCat)] = true ∧
    pA ≠ pB ∧
    solve cDup = some [(pA, wCat), (pB, wCat)] := by
  refine ⟨by decide, by decide, by decide⟩

/-- C2: the claim fails on the code.  With at least two unassigned
variables, `select_unassigned_variable` re-sorts every candidate by neighbor
count descending, so the degree heuristic is the primary key and MRV only
breaks degree ties: on `dSel` the unassigned `uA` has the unique minimum
domain (one word against two), yet `uB` is returned. -/
theorem C2_select_ignores_minimum_domain :
    select_unassigned_variable cSel dSel [] = some uB ∧
    uA ∈ keyList dSel ∧
    lookup ([] : Assignment) uA = none ∧
    (getDom dSel uA).length < (getDom dSel uB).length := by
  refine ⟨by decide, by decide, by decide, by decide⟩

/-- C3: the claim fails on the code.  `backtrack` iterates
`self.domains[variable]` directly and never calls `order_domain_values`: on
`cOrd` the domain order of `oX` is mat, cat while the least-constraining
order is cat, mat, and the solution returned assigns mat — the first value
in domain order, not in heuristic order. -/
theorem C3_backtrack_ignores_value_ordering :
    solve cOrd = some [(oX, wMat), (oY, wMans)] ∧
    getDom (solveDomains cOrd) oX = [wMat, wCat] ∧
    order_domain_values cOrd (solveDomains cOrd) oX [] = some [wCat, wMat] := by
  refine ⟨by decide, by decide, by decide⟩

/-- C4 counterexample: the claim, as stated, is false at `cB`.  AC-3 empties
the domain of `bX` and returns the failure flag, but `solve` discards that
flag and still invokes the backtracking search, which is entered three times
(the root plus one branch per word of `bY`) before failing. -/
theorem C4_counterexample_search_invoked :
    (ac3 cB (defaultArcs cB) (enforce_node_consistency (initDomains cB))).1 = false ∧
    (backtrackCount cB (solveDomains cB) ((solveDomains cB).length + 1) []).2 = 3 ∧
    (backtrackCount cB (solveDomains cB) ((solveDomains cB).length + 1) []).1
      = solve cB := by
  refine ⟨by decide, by decide, by decide⟩

/-- C4 (amended): when AC-3 returns the failure flag, `solve` still invokes
the backtracking search — the flag is ignored — but the search cannot
complete an assignment over a variable whose domain was emptied, so `solve`
nevertheless returns the failure signal `none`. -/
theorem C4_solve_none_of_ac3_false (c : Crossword) (d' : Domains)
    (h : ac3 c (defaultArcs c) (enforce_node_consistency (initDomains c))
      = (false, d')) :
    solve c = none := by
  have hsd : solveDomains c = d' := by rw [solveDomains, h]
  obtain ⟨v, hv, he⟩ := ac3_false_empty h
  rw [solve, hsd]
  exact backtrack_blocked c d' v hv he _ []
    (by simp [keyList]) (by intro u hu; simp [keyList] at hu) rfl

theorem C4_witness : solve cB = none :=
  C4_solve_none_of_ac3_false cB dBRes (by decide)

/-- C5: AC-3 soundness.  On well-formed geometry (overlaps are irreflexive
and symmetric with flipped indices), after `ac3` with the default arc list
returns the success flag, every ordered pair of puzzle variables with a
defined overlap `(i, j)` is arc-consistent: each surviving word of the first
variable has a supporting word in the second variable's domain. -/
theorem C5_ac3_soundness (c : Crossword)
    (hsym : ∀ x y i j, c.overlaps x y = some (i, j) → c.overlaps y x = some (j, i))
    (hirr : ∀ x, c.overlaps x x = none)
    (d d' : Domains) (h : ac3 c (defaultArcs c) d = (true, d'))
    (x y : Variable) (hx : x ∈ c.vars) (hy : y ∈ c.vars)
    (i j : Nat) (hov : c.overlaps x y = some (i, j))
    (w : Word) (hw : w ∈ getDom d' x) :
    ∃ w2 ∈ getDom d' y, w[i]? = w2[j]? :=
  ac3_default_arcOK c hsym hirr d d' h x hx y hy i j hov w hw

theorem C5_witness :
    ∃ w2 ∈ getDom dExRes cExB, wCat[1]? = w2[1]? :=
  C5_ac3_soundness cEx cEx_overlaps_symm cEx_overlaps_irrefl
    (enforce_node_consistency (initDomains cEx)) dExRes (by decide)
    cExA cExB (by decide) (by decide) 1 1 (by decide) wCat (by decide)

/-- C6: every assignment returned by `solve` is complete with respect to the
domain store (every puzzle variable is assigned) and passes the
`consistent` check. -/
theorem C6_solve_complete_and_consistent (c : Crossword) (r : Assignment)
    (h : solve c = some r) :
    assignment_complete (solveDomains c) r = true ∧ consistent c r = true := by
  rw [solve] at h
  refine backtrack_some_sound c (solveDomains c) _ [] r ?_ ?_ ?_ h
  · simp [keyList]
  · intro u hu
    simp [keyList] at hu
  · rfl

theorem C6_witness :
    assignment_complete (solveDomains cEx) [(cExA, wCat), (cExB, wCat)] = true ∧
    consistent cEx [(cExA, wCat), (cExB, wCat)] = true :=
  C6_solve_complete_and_consistent cEx [(cExA, wCat), (cExB, wCat)] (by decide)

/-- C7: domains only shrink.  Every word in a domain after
`enforce_node_consistency`, or after any run of `ac3` with any initial arc
list, was already in that variable's domain beforehand. -/
theorem C7_domains_monotonic (c : Crossword) (d : Domains)
    (arcs : List (Variable × Variable)) (v : Variable) (w : Word) :
    (w ∈ getDom (enforce_node_consistency d) v → w ∈ getDom d v) ∧
    (w ∈ getDom (ac3 c arcs d).2 v → w ∈ getDom d v) := by
  constructor
  · intro hw
    rw [getDom_enforce] at hw
    exact List.mem_of_mem_filter hw
  · exact ac3_shrink c arcs d v w

theorem C7_witness :
    wCat ∈ getDom (enforce_node_consistency (initDomains cEx)) cExA ∧
    wCat ∈ getDom (ac3 cEx (defaultArcs cEx) (initDomains cEx)).2 cExA ∧
    wCat ∈ getDom (initDomains cEx) cExA :=
  ⟨by decide, by decide,
    (C7_domains_monotonic cEx (initDomains cEx) (defaultArcs cEx) cExA wCat).2
      (by decide)⟩

/-- C8: `revise (x, y)` never changes the domain of `y` (the geometry never
defines a self-overlap, matching the source where the overlap store has no
diagonal entries), and when no overlap is defined for the pair it changes
nothing and reports no revision.  The overlap store itself is read-only
throughout. -/
theorem C8_revise_frame (c : Crossword) (d : Domains) (x y : Variable)
    (hirr : c.overlaps x x = none) :
    getDom (revise c d x y).2 y = getDom d y ∧
    (c.overlaps x y = none → revise c d x y = (false, d)) := by
  cases hov : c.overlaps x y with
  | none =>
    constructor
    · show getDom (match c.overlaps x y with
        | none => ((false : Bool), d)
        | some (i, j) =>
          let newDx := (getDom d x).filter (fun w => hasSupport w i j (getDom d y))
          if newDx.length < (getDom d x).length then (true, setDom d x newDx)
          else (false, d)).2 y = getDom d y
      rw [hov]
    · intro _
      show (match c.overlaps x y with
        | none => ((false : Bool), d)
        | some (i, j) =>
          let newDx := (getDom d x).filter (fun w => hasSupport w i j (getDom d y))
          if newDx.length < (getDom d x).length then (true, setDom d x newDx)
          else (false, d)) = (false, d)
      rw [hov]
  | some ij =>
    obtain ⟨i, j⟩ := ij
    have hyx : y ≠ x := by
      intro he
      rw [he, hirr] at hov
      exact Option.noConfusion hov
    constructor
    · show getDom (match c.overlaps x y with
        | none => ((false : Bool), d)
        | some (i, j) =>
          let newDx := (getDom d x).filter (fun w => hasSupport w i j (getDom d y))
          if newDx.length < (getDom d x).length then (true, setDom d x newDx)
          else (false, d)).2 y = getDom d y
      rw [hov]
      simp only
      split
      · exact getDom_setDom_ne _ hyx
      · rfl
    · intro hno
      exact Option.noConfusion hno

theorem C8_witness :
    cEx.overlaps cExA cExA = none ∧
    getDom (revise cEx (initDomains cEx) cExA cExB).2 cExB
      = getDom (initDomains cEx) cExB :=
  ⟨by decide, (C8_revise_frame cEx (initDomains cEx) cExA cExB (by decide)).1⟩

/-- C9: AC-3 terminates on every input.  The work-list loop, run with the
explicit fuel `ac3Bound` — a bound computed from the total domain size, the
variable count and the initial queue length — always reaches a result
rather than exhausting its fuel, and `ac3` is exactly that result. -/
theorem C9_ac3_terminates (c : Crossword) (q : List (Variable × Variable))
    (d : Domains) :
    (ac3Fuel c (ac3Bound c q d) q d).isSome = true ∧
    ac3Fuel c (ac3Bound c q d) q d = some (ac3 c q d) := by
  have h := ac3_eq_fuel c q d
  exact ⟨by rw [h]; rfl, h⟩

/-- C10: `order_domain_values` succeeds exactly on a non-empty domain — an
empty domain reaches the `return` with the sorted list never bound, modelled
as `none` — and on success the returned list is a permutation of the
variable's current domain. -/
theorem C10_order_domain_values_spec (c : Crossword) (d : Domains) (var : Variable)
    (a : Assignment) :
    (getDom d var = [] → order_domain_values c d var a = none) ∧
    (getDom d var ≠ [] →
      ∃ l, order_domain_values c d var a = some l ∧ l.Perm (getDom d var)) := by
  constructor
  · exact fun h => order_domain_values_eq_none h
  · intro hne
    refine ⟨_, order_domain_values_eq_some hne, ?_⟩
    have hperm := (sortBy_perm (fun p q => decide (p.2 ≤ q.2))
      ((getDom d var).map (fun w => (w, countElim c d a var w)))).map Prod.fst
    have hmap : (((getDom d var).map (fun w => (w, countElim c d a var w))).map
        Prod.fst) = getDom d var := by
      rw [List.map_map]
      have hid : (Prod.fst ∘ fun w => (w, countElim c d a var w)) = id := rfl
      rw [hid, List.map_id]
    rw [hmap] at hperm
    exact hperm

theorem C10_witness :
    getDom dSel uA ≠ [] ∧
    (∃ l, order_domain_values cSel dSel uA [] = some l ∧ l.Perm (getDom dSel uA)) :=
  ⟨by decide, (C10_order_domain_values_spec cSel dSel uA []).2 (by decide)⟩

end CrosswordCSP
